import Mathlib

/-!
Verification of the calcumet sheet-metal calculator.

Shallow embedding of the core of `tools.py` and `calcumet.py`:
Python `dict`s (insertion-ordered) become association lists, Python
numbers become `ℚ`, and Python strings become Lean `String`s compared
character-by-character.
-/

namespace Calcumet

/-! ## Rounding / distribution engine (`tools.py`) -/

/-- Difference between the ceiling of a value and the value
(`get_ceil_delta` in `tools.py`). -/
def get_ceil_delta (v : ℚ) : ℚ := ⌈v⌉ - v

/-- The distribution loop of `spread_delta` (`tools.py`, lines 106-121):
walk the (already sorted) entries; an element whose ceiling delta exceeds
the remaining spread absorbs it and the loop exits; otherwise the element
is rounded up to its ceiling, the spread is decremented, and the loop
exits as soon as the spread reaches exactly 0. -/
def spreadWalk {α : Type} : ℚ → List (α × ℚ) → List (α × ℚ)
  | _, [] => []
  | spread, (k, v) :: rest =>
    if spread < get_ceil_delta v then
      (k, v + spread) :: rest
    else if spread - get_ceil_delta v = 0 then
      (k, (⌈v⌉ : ℚ)) :: rest
    else
      (k, (⌈v⌉ : ℚ)) :: spreadWalk (spread - get_ceil_delta v) rest

/-- `dict(sorted(d.items(), key=lambda item: get_ceil_delta(item[1])))`:
stable sort of the entries by ascending ceiling delta of the value. -/
def sortByDelta {α : Type} (d : List (α × ℚ)) : List (α × ℚ) :=
  d.mergeSort (fun x y => decide (get_ceil_delta x.2 ≤ get_ceil_delta y.2))

/-- Sum of the values of an association list (`sum(d.values())`). -/
def sumVals {α : Type} (d : List (α × ℚ)) : ℚ := (d.map Prod.snd).sum

/-- `spread_delta` (`tools.py`, lines 97-123): sort the entries by
ascending ceiling delta, then walk them distributing the delta between
the ceiling of the sum and the sum. -/
def spread_delta {α : Type} (d : List (α × ℚ)) : List (α × ℚ) :=
  spreadWalk (get_ceil_delta (sumVals d)) (sortByDelta d)

/-- `ceil_dict_values` (`tools.py`, lines 126-128): ceil every value
independently. -/
def ceil_dict_values {α : Type} (d : List (α × ℚ)) : List (α × ℚ) :=
  d.map (fun p => (p.1, (⌈p.2⌉ : ℚ)))

/-- The walk of `spread_delta` visits every element: it never exits
while entries remain unvisited. -/
def visitsAll {α : Type} : ℚ → List (α × ℚ) → Bool
  | _, [] => true
  | spread, (_, v) :: rest =>
    if spread < get_ceil_delta v then rest.isEmpty
    else if spread - get_ceil_delta v = 0 then rest.isEmpty
    else visitsAll (spread - get_ceil_delta v) rest

/-- The walk of `spread_delta` rounds every element up to its ceiling:
no element absorbs a remaining spread and no element is left unvisited. -/
def allCeiled {α : Type} : ℚ → List (α × ℚ) → Bool
  | _, [] => true
  | spread, (_, v) :: rest =>
    if spread < get_ceil_delta v then false
    else if spread - get_ceil_delta v = 0 then rest.isEmpty
    else allCeiled (spread - get_ceil_delta v) rest

/-- A rational holds an integer. -/
def isIntVal (q : ℚ) : Bool := q.den = 1

/-! ## Geometry / yield calculator (`tools.py`) -/

/-- A feedstock record: `{d, W, L, rho}` as produced by
`update_feedstock`; only `W` and `L` are consumed by the core. -/
structure FeedRec where
  d : ℚ
  W : ℚ
  L : ℚ
  rho : ℚ

/-- `get_pps` (`tools.py`, lines 85-89): best axis-aligned grid packing
of an `a × b` preform on the sheet named `sheet`, trying both
orientations.  Python `//` on positive numbers is floor division. -/
def get_pps (a b : ℚ) (sheet : String) (feedstock : String → FeedRec) : ℚ :=
  let length := (feedstock sheet).L
  let width := (feedstock sheet).W
  max ((⌊length / a⌋ : ℚ) * (⌊width / b⌋ : ℚ))
      ((⌊length / b⌋ : ℚ) * (⌊width / a⌋ : ℚ))

/-! ## Marker matching (`tools.py`) -/

/-- `str.lower()` restricted to ASCII case mapping. -/
def pyLower (s : String) : String := ⟨s.data.map Char.toLower⟩

/-- Python `str.islower()`: at least one cased character and every cased
character lowercase (ASCII model). -/
def pyIslower (s : String) : Bool :=
  s.data.any (fun c => c.isAlpha) && s.data.all (fun c => !c.isAlpha || c.isLower)

/-- Python substring test `w in s`. -/
def substrB (w s : String) : Bool := decide (w.data <:+: s.data)

/-- `has_marker` (`tools.py`, lines 137-140):
`any(word in (item, item.lower())[word.islower()] for word in tester)`. -/
def has_marker (item : String) (tester : List String) : Bool :=
  tester.any (fun word => substrB word (if pyIslower word then pyLower item else item))

/-- Sum of the ceiling deltas of the values. -/
def sumDeltas {α : Type} (d : List (α × ℚ)) : ℚ :=
  (d.map (fun p => get_ceil_delta p.2)).sum

/-! ## Report assembler (`calcumet.py`, lines 187-202) -/

/-- Lexicographic non-strict order on character lists: Python string
comparison by code points. -/
def charListLe : List Char → List Char → Bool
  | [], _ => true
  | _ :: _, [] => false
  | a :: as, b :: bs => if a = b then charListLe as bs else decide (a < b)

/-- Python `s <= t` on strings. -/
def strLeB (s t : String) : Bool := charListLe s.data t.data

/-- Python `s < t` on strings. -/
def strLtB (s t : String) : Bool := strLeB s t && !(s == t)

/-- `dict(sorted(d.items()))`: stable sort of the entries by key. -/
def sortByKey {β : Type} (d : List (String × β)) : List (String × β) :=
  d.mergeSort (fun x y => strLeB x.1 y.1)

/-- `sort_nested_dict` (`tools.py`, lines 73-77): sort the inner
dictionaries by key, then the outer dictionary by key. -/
def sort_nested_dict {β : Type} (d : List (String × List (String × β))) :
    List (String × List (String × β)) :=
  sortByKey (d.map (fun p => (p.1, sortByKey p.2)))

/-- The `transformer` dispatch (`tools.py`, lines 131-134): `'grouped'`
selects `spread_delta`, `'single'` selects `ceil_dict_values` (the only
two mode strings the aggregator ever produces). -/
def transformer (mode : String) (d : List (String × ℚ)) : List (String × ℚ) :=
  if mode = "grouped" then spread_delta d else ceil_dict_values d

/-- Python 3 `round` to the nearest integer, ties to even. -/
def round_half_even (q : ℚ) : ℤ :=
  if 2 * (q - ⌊q⌋) = 1 then (if 2 ∣ ⌊q⌋ then ⌊q⌋ else ⌊q⌋ + 1) else round q

/-- Python `round(q, 1)`. -/
def pyRound1 (q : ℚ) : ℚ := (round_half_even (10 * q) : ℚ) / 10

/-- Python `int(q)`: truncation toward zero. -/
def pyInt (q : ℚ) : ℤ := q.num / (q.den : ℤ)

/-- Per-element bookkeeping accumulated during a run (`memo` in
`calculate_sheets_number`): preforms per sheet, total piece demand,
contributing items in encounter order. -/
structure MemoRec where
  pps : ℚ
  demand : ℤ
  items : List String
deriving DecidableEq

/-- First-occurrence lookup in an association list (Python dict access). -/
def alistGet {α β : Type} [DecidableEq α] : List (α × β) → α → Option β
  | [], _ => none
  | (k', v) :: rest, k => if k' = k then some v else alistGet rest k

/-- `memo[elem]` accesses during report assembly. -/
def memoGet (memo : List (String × MemoRec)) (elem : String) : MemoRec :=
  (alistGet memo elem).getD ⟨0, 0, []⟩

/-- One report row (`calcumet.py`, line 201-202), the run timestamp
omitted. -/
structure Row where
  sheet : String
  mode : String
  elem : String
  items : String
  demand : ℤ
  recomm : ℤ
  sheets_n : ℚ
deriving DecidableEq

/-- The report loop of `calculate_sheets_number` (`calcumet.py`, lines
187-202): sort the nested bucket dictionary, transform each mode bucket
with its rounding policy, and emit one row per element of the
transformed bucket.  `sheets_n` in a row is the value iterated from the
transformed bucket, since line 194 overwrites `temp[sheet][mode]` before
line 197 iterates it. -/
def buildReport (memo : List (String × MemoRec))
    (temp : List (String × List (String × List (String × ℚ)))) : List Row :=
  (sort_nested_dict temp).flatMap (fun sp =>
    sp.2.flatMap (fun mp =>
      (transformer mp.1 mp.2).map (fun ep =>
        { sheet := sp.1, mode := mp.1, elem := ep.1,
          items := String.intercalate " " (memoGet memo ep.1).items,
          demand := (memoGet memo ep.1).demand,
          recomm := pyInt (ep.2 * (memoGet memo ep.1).pps),
          sheets_n := pyRound1 ep.2 })))

/-- The (sheet, mode, element) key of a report row. -/
def rowKey (r : Row) : String × String × String := (r.sheet, r.mode, r.elem)

/-- Lexicographic comparison of row keys: sheet strictly before, then
mode strictly before, then element non-strictly. -/
def tripleLeB (x y : String × String × String) : Bool :=
  if x.1 = y.1 then (if x.2.1 = y.2.1 then strLeB x.2.2 y.2.2 else strLtB x.2.1 y.2.1)
  else strLtB x.1 y.1

/-- Each key is at most its successor, under a given comparison. -/
def chainB {γ : Type} (le : γ → γ → Bool) : List γ → Bool
  | [] => true
  | [_] => true
  | x :: y :: rest => le x y && chainB le (y :: rest)

/-- The ordering claimed by the spec: consecutive report rows ascend by
sheet name, then mode name, then element name. -/
def reportSortedByName (rows : List Row) : Prop :=
  chainB tripleLeB (rows.map rowKey) = true

/-- Lexicographic comparison of (sheet, mode) row-key prefixes: sheet
strictly before, mode non-strictly within equal sheets. -/
def pairLeB (x y : String × String) : Bool :=
  if x.1 = y.1 then strLeB x.2 y.2 else strLtB x.1 y.1

/-! ## Demand aggregator (`calcumet.py`, lines 161-185) -/

/-- A preform record `{a, b, sheet}` as produced by `update_preforms`. -/
structure PreformRec where
  a : ℚ
  b : ℚ
  sheet : String

/-- A demand-quantity cell: a Python `int` or a value of any other type. -/
inductive Qty where
  | int (n : ℤ)
  | other
deriving DecidableEq

/-- Per-entry outcome written into the date cell: the timestamp on
success, or the name of the exception class used as error kind. -/
inductive Outcome where
  | ok
  | keyError
  | typeError
  | valueError
deriving DecidableEq

/-- The read-only reference tables of a run: bill of materials,
preform specs, feedstock specs, and the grouping markers. -/
structure Env where
  contents : List (String × List (String × ℤ))
  preforms : String → PreformRec
  feedstock : String → FeedRec
  grouped : List String

/-- `Counter.update({k: x})`: add to the existing count in place, or
append the key. -/
def counterAdd : List (String × ℚ) → String → ℚ → List (String × ℚ)
  | [], k, x => [(k, x)]
  | (k', v) :: rest, k, x =>
    if k' = k then (k', v + x) :: rest else (k', v) :: counterAdd rest k x

/-- `sheetdict.setdefault(mode, Counter()).update({elem: x})`. -/
def modeAdd : List (String × List (String × ℚ)) → String → String → ℚ →
    List (String × List (String × ℚ))
  | [], mode, elem, x => [(mode, [(elem, x)])]
  | (k', v) :: rest, mode, elem, x =>
    if k' = mode then (k', counterAdd v elem x) :: rest
    else (k', v) :: modeAdd rest mode elem x

/-- `temp.setdefault(sheet, {}).setdefault(mode, Counter()).update({elem: x})`. -/
def bucketAdd : List (String × List (String × List (String × ℚ))) →
    String → String → String → ℚ → List (String × List (String × List (String × ℚ)))
  | [], sheet, mode, elem, x => [(sheet, [(mode, [(elem, x)])])]
  | (k', v) :: rest, sheet, mode, elem, x =>
    if k' = sheet then (k', modeAdd v mode elem x) :: rest
    else (k', v) :: bucketAdd rest sheet mode elem x

/-- The three memo updates of the element loop in one pass:
`pps = memo.setdefault(elem, {}).setdefault('pps', p)`,
`memo[elem]['demand'] = memo[elem].get('demand', 0) + dem`,
`memo[elem].setdefault('items', []).append(item)`.
Returns the updated memo and the (possibly cached) `pps`. -/
def memoStep : List (String × MemoRec) → String → ℚ → ℤ → String →
    List (String × MemoRec) × ℚ
  | [], elem, p, dem, item => ([(elem, ⟨p, dem, [item]⟩)], p)
  | (k', r) :: rest, elem, p, dem, item =>
    if k' = elem then
      ((k', ⟨r.pps, r.demand + dem, r.items ++ [item]⟩) :: rest, r.pps)
    else
      let res := memoStep rest elem p dem item
      ((k', r) :: res.1, res.2)

/-- The transient state of one run of `calculate_sheets_number`: the
nested bucket dictionary `temp` and the per-element `memo`. -/
structure AggState where
  temp : List (String × List (String × List (String × ℚ)))
  memo : List (String × MemoRec)
deriving DecidableEq

/-- The body of the element loop (`calcumet.py`, lines 177-185). -/
def processElem (E : Env) (item : String) (qty : ℤ) (st : AggState)
    (ep : String × ℤ) : AggState :=
  let pr := E.preforms ep.1
  let dem := qty * ep.2
  let res := memoStep st.memo ep.1 (get_pps pr.a pr.b pr.sheet E.feedstock) dem item
  let mode := if has_marker item E.grouped then "grouped" else "single"
  { temp := bucketAdd st.temp pr.sheet mode ep.1 ((dem : ℚ) / res.2),
    memo := res.1 }

/-- One demand entry (`calcumet.py`, lines 161-185): validate, then fold
the element loop over the item's bill of materials. -/
def processEntry (E : Env) (st : AggState) (e : String × Qty) : AggState × Outcome :=
  match alistGet E.contents e.1 with
  | none => (st, Outcome.keyError)
  | some elems =>
    match e.2 with
    | Qty.other => (st, Outcome.typeError)
    | Qty.int n =>
      if n ≤ 0 then (st, Outcome.valueError)
      else (elems.foldl (processElem E e.1 n) st, Outcome.ok)

/-- The demand loop: fold all entries over the empty state. -/
def aggregate (E : Env) (entries : List (String × Qty)) : AggState :=
  entries.foldl (fun st e => (processEntry E st e).1) ⟨[], []⟩

/-- An entry passing all three validations: known item, integer
quantity, positive quantity. -/
def validEntry (E : Env) (e : String × Qty) : Bool :=
  match alistGet E.contents e.1, e.2 with
  | some _, Qty.int n => decide (0 < n)
  | _, _ => false

/-- The count of one element in a counter, 0 when absent. -/
def counterVal (md : List (String × ℚ)) (elem : String) : ℚ :=
  (alistGet md elem).getD 0

/-- The count of one element in one mode bucket of a sheet dictionary,
0 when absent. -/
def modeVal (sd : List (String × List (String × ℚ))) (mode elem : String) : ℚ :=
  ((alistGet sd mode).map (fun md => counterVal md elem)).getD 0

/-- The accumulated fractional total of one (sheet, mode, element)
bucket, 0 when absent. -/
def bucketVal (temp : List (String × List (String × List (String × ℚ))))
    (sheet mode elem : String) : ℚ :=
  ((alistGet temp sheet).map (fun sd => modeVal sd mode elem)).getD 0

/-- The contributing-items list recorded for an element, `[]` when
absent. -/
def memoItems (memo : List (String × MemoRec)) (elem : String) : List String :=
  ((alistGet memo elem).map MemoRec.items).getD []

/-- The preforms-per-sheet number of an element, as computed from the
reference tables. -/
def ppsOf (E : Env) (elem : String) : ℚ :=
  get_pps (E.preforms elem).a (E.preforms elem).b (E.preforms elem).sheet E.feedstock

/-- Contribution of one element-loop iteration to one bucket key. -/
def contribElem (E : Env) (item : String) (qty : ℤ) (key : String × String × String)
    (ep : String × ℤ) : ℚ :=
  let pr := E.preforms ep.1
  let mode := if has_marker item E.grouped then "grouped" else "single"
  if (pr.sheet, mode, ep.1) = key then ((qty * ep.2 : ℤ) : ℚ) / ppsOf E ep.1 else 0

/-- Contribution of one demand entry to one bucket key. -/
def contrib (E : Env) (e : String × Qty) (key : String × String × String) : ℚ :=
  match alistGet E.contents e.1, e.2 with
  | some elems, Qty.int n =>
    if 0 < n then (elems.map (contribElem E e.1 n key)).sum else 0
  | _, _ => 0

/-- The item occurrences one demand entry appends to an element's
contributing-items list. -/
def itemsOfEntry (E : Env) (e : String × Qty) (elem : String) : List String :=
  match alistGet E.contents e.1, e.2 with
  | some elems, Qty.int n =>
    if 0 < n then elems.flatMap (fun ep => if ep.1 = elem then [e.1] else []) else []
  | _, _ => []

/-- Every memo entry caches exactly the preforms-per-sheet number of its
element. -/
def memoWF (f : String → ℚ) (memo : List (String × MemoRec)) : Prop :=
  ∀ q ∈ memo, (q.2).pps = f q.1

/-- The concrete reference tables used by the aggregation witnesses:
one item `Widget` made of two pieces of the element `w`, cut from the
1×1 sheet `S` (one preform per sheet). -/
def envW : Env :=
  ⟨[("Widget", [("w", 2)])], fun _ => ⟨1, 1, "S"⟩, fun _ => ⟨0, 1, 1, 0⟩, []⟩

/-- Reference tables with one item `A` of element `x` (two pieces per
item) cut from the 1000×2000 sheet `S` with a 100×50 preform
(400 preforms per sheet). -/
def envA2 : Env :=
  ⟨[("A", [("x", 2)])], fun _ => ⟨100, 50, "S"⟩, fun _ => ⟨0, 1000, 2000, 0⟩, []⟩

/-- Reference tables with two items `A` (element `x`) and `B`
(element `a`), both cut from the 1×1 sheet `S`. -/
def envAB : Env :=
  ⟨[("A", [("x", 1)]), ("B", [("a", 1)])],
    fun _ => ⟨1, 1, "S"⟩, fun _ => ⟨0, 1, 1, 0⟩, []⟩

/-! ## Bill-of-materials update (`calcumet.py`, lines 12-58) -/

/-- One contents row of the loader sheet with an empty date cell: the
item, element and piece-count cells, each possibly empty (`None`). -/
structure CRow where
  item : Option String
  elem : Option String
  pcs : Option Qty
deriving DecidableEq

/-- What `update_contents` writes into a row's date cell. -/
inductive Flag where
  | now
  | valueError
  | typeError
  | keyError
deriving DecidableEq

/-- `m.update({elem: n})`: replace in place or append. -/
def alistSet : List (String × ℤ) → String → ℤ → List (String × ℤ)
  | [], elem, n => [(elem, n)]
  | (k, v) :: rest, elem, n =>
    if k = elem then (k, n) :: rest else (k, v) :: alistSet rest elem n

/-- `temp.setdefault(item, {}).update({elem: pcs})`. -/
def bomInsert : List (String × List (String × ℤ)) → String → String → ℤ →
    List (String × List (String × ℤ))
  | [], item, elem, n => [(item, [(elem, n)])]
  | (k, m) :: rest, item, elem, n =>
    if k = item then (k, alistSet m elem n) :: rest
    else (k, m) :: bomInsert rest item elem n

/-- `del m[elem]`: `none` models the `KeyError`. -/
def innerDelete : List (String × ℤ) → String → Option (List (String × ℤ))
  | [], _ => none
  | (k, v) :: rest, elem =>
    if k = elem then some rest
    else (innerDelete rest elem).map (fun rest' => (k, v) :: rest')

/-- `del temp[item][elem]` followed by `if not temp[item]: del temp[item]`;
`none` models the `KeyError` caught by the `except` clause. -/
def bomDelete : List (String × List (String × ℤ)) → String → String →
    Option (List (String × List (String × ℤ)))
  | [], _, _ => none
  | (k, m) :: rest, item, elem =>
    if k = item then
      (innerDelete m elem).map (fun m' => if m' = [] then rest else (k, m') :: rest)
    else (bomDelete rest item elem).map (fun rest' => (k, m) :: rest')

/-- One iteration of the row loop of `update_contents`
(`calcumet.py`, lines 17-44): skip incomplete rows as `ValueError`,
non-integer piece counts as `TypeError`; insert positive counts, treat a
zero count as deletion (`KeyError` when absent), flag negative counts as
`ValueError`. -/
def bomStep (temp : List (String × List (String × ℤ))) (r : CRow) :
    List (String × List (String × ℤ)) × Flag :=
  match r.item, r.elem, r.pcs with
  | some item, some elem, some pv =>
    match pv with
    | Qty.other => (temp, Flag.typeError)
    | Qty.int n =>
      if 0 < n then (bomInsert temp item elem n, Flag.now)
      else if n = 0 then
        match bomDelete temp item elem with
        | some temp' => (temp', Flag.now)
        | none => (temp, Flag.keyError)
      else (temp, Flag.valueError)
  | _, _, _ => (temp, Flag.valueError)

/-- The row loop of `update_contents` over the rows whose date cell is
empty, returning the updated mapping. -/
def update_contents (rows : List CRow) (temp : List (String × List (String × ℤ))) :
    List (String × List (String × ℤ)) :=
  rows.foldl (fun t r => (bomStep t r).1) temp

/-- The bill-of-materials invariant: no empty item mapping, and every
piece count positive. -/
def goodBOM (temp : List (String × List (String × ℤ))) : Prop :=
  ∀ p ∈ temp, p.2 ≠ [] ∧ ∀ q ∈ p.2, 0 < q.2

/-! ## Basic lemmas about the distribution engine -/

theorem get_ceil_delta_nonneg (v : ℚ) : 0 ≤ get_ceil_delta v :=
  sub_nonneg.mpr (Int.le_ceil v)

theorem sumDeltas_nonneg {α : Type} (d : List (α × ℚ)) : 0 ≤ sumDeltas d := by
  induction d with
  | nil => simp [sumDeltas]
  | cons p rest ih =>
    simp only [sumDeltas, List.map_cons, List.sum_cons]
    exact add_nonneg (get_ceil_delta_nonneg p.2) ih

theorem sumDeltas_eq {α : Type} (d : List (α × ℚ)) :
    sumDeltas d = sumVals (ceil_dict_values d) - sumVals d := by
  induction d with
  | nil => simp [sumDeltas, sumVals, ceil_dict_values]
  | cons p rest ih =>
    simp only [sumDeltas, sumVals, ceil_dict_values, List.map_cons, List.sum_cons,
      List.map_map] at ih ⊢
    rw [get_ceil_delta]
    ring_nf
    ring_nf at ih
    linarith

theorem sumVals_ceil_dict {α : Type} (d : List (α × ℚ)) :
    sumVals (ceil_dict_values d) = (d.map (fun p => (⌈p.2⌉ : ℚ))).sum := by
  induction d with
  | nil => simp [sumVals, ceil_dict_values]
  | cons p rest ih =>
    simp only [sumVals, ceil_dict_values, List.map_cons, List.sum_cons] at ih ⊢
    rw [← ih]

theorem ceil_sumVals_le {α : Type} (d : List (α × ℚ)) :
    (⌈sumVals d⌉ : ℚ) ≤ sumVals (ceil_dict_values d) := by
  rw [sumVals_ceil_dict]
  induction d with
  | nil => simp [sumVals]
  | cons p rest ih =>
    simp only [sumVals, List.map_cons, List.sum_cons] at ih ⊢
    have h1 : (⌈p.2 + (rest.map Prod.snd).sum⌉ : ℤ) ≤ ⌈p.2⌉ + ⌈(rest.map Prod.snd).sum⌉ :=
      Int.ceil_add_le p.2 _
    have h1' : (⌈p.2 + (rest.map Prod.snd).sum⌉ : ℚ) ≤ (⌈p.2⌉ : ℚ) + (⌈(rest.map Prod.snd).sum⌉ : ℚ) := by
      exact_mod_cast h1
    linarith

theorem sumVals_spreadWalk {α : Type} (l : List (α × ℚ)) :
    ∀ spread : ℚ, 0 ≤ spread →
    sumVals (spreadWalk spread l) = sumVals l + min spread (sumDeltas l) := by
  induction l with
  | nil =>
    intro spread h
    simp [spreadWalk, sumVals, sumDeltas, min_eq_right h]
  | cons p rest ih =>
    intro spread h
    obtain ⟨k, v⟩ := p
    by_cases h1 : spread < get_ceil_delta v
    · have hmin : min spread (sumDeltas ((k, v) :: rest)) = spread := by
        apply min_eq_left
        have := sumDeltas_nonneg rest
        simp only [sumDeltas, List.map_cons, List.sum_cons]
        have : (0:ℚ) ≤ (rest.map (fun p => get_ceil_delta p.2)).sum := this
        linarith [le_of_lt h1]
      simp only [spreadWalk, if_pos h1, sumVals, List.map_cons, List.sum_cons, hmin]
      ring
    · by_cases h2 : spread - get_ceil_delta v = 0
      · have hsp : spread = get_ceil_delta v := by linarith [sub_eq_zero.mp h2]
        have hmin : min spread (sumDeltas ((k, v) :: rest)) = spread := by
          apply min_eq_left
          have := sumDeltas_nonneg rest
          simp only [sumDeltas, List.map_cons, List.sum_cons]
          rw [hsp]
          simpa using this
        simp only [spreadWalk, if_neg h1, if_pos h2, sumVals, List.map_cons, List.sum_cons, hmin]
        rw [hsp, get_ceil_delta]
        ring
      · have hge : get_ceil_delta v ≤ spread := le_of_not_lt h1
        have hge' : 0 ≤ spread - get_ceil_delta v := by linarith
        have hrec := ih (spread - get_ceil_delta v) hge'
        simp only [spreadWalk, if_neg h1, if_neg h2, sumVals, List.map_cons, List.sum_cons] at hrec ⊢
        rw [hrec]
        have hmin : min (spread - get_ceil_delta v) (sumDeltas rest) + get_ceil_delta v
            = min spread (get_ceil_delta v + sumDeltas rest) := by
          rw [← min_add_add_right]
          congr 1 <;> ring
        have hceil : (⌈v⌉ : ℚ) = v + get_ceil_delta v := by
          rw [get_ceil_delta]
          ring
        simp only [sumDeltas, List.map_cons, List.sum_cons] at hmin ⊢
        rw [hceil]
        linarith [hmin]

theorem sortByDelta_perm {α : Type} (d : List (α × ℚ)) : (sortByDelta d).Perm d :=
  List.mergeSort_perm d _

theorem sumVals_sortByDelta {α : Type} (d : List (α × ℚ)) :
    sumVals (sortByDelta d) = sumVals d :=
  ((sortByDelta_perm d).map Prod.snd).sum_eq

theorem sumDeltas_sortByDelta {α : Type} (d : List (α × ℚ)) :
    sumDeltas (sortByDelta d) = sumDeltas d := by
  have h := ((sortByDelta_perm d).map (fun p : α × ℚ => get_ceil_delta p.2)).sum_eq
  simpa [sumDeltas] using h

/-- The distributed sum always equals the ceiling of the input sum. -/
theorem sumVals_spread_delta {α : Type} (d : List (α × ℚ)) :
    sumVals (spread_delta d) = ⌈sumVals d⌉ := by
  unfold spread_delta
  rw [sumVals_spreadWalk (sortByDelta d) _ (get_ceil_delta_nonneg _)]
  have hle : get_ceil_delta (sumVals d) ≤ sumDeltas (sortByDelta d) := by
    rw [sumDeltas_sortByDelta, sumDeltas_eq, get_ceil_delta]
    have := ceil_sumVals_le d
    linarith
  rw [min_eq_left hle, sumVals_sortByDelta, get_ceil_delta]
  ring

/-- A walk in which every step takes the ceiling branch rounds every
value up to its ceiling. -/
theorem spreadWalk_allCeiled {α : Type} :
    ∀ (l : List (α × ℚ)) (spread : ℚ), allCeiled spread l = true →
    spreadWalk spread l = l.map (fun p => (p.1, (⌈p.2⌉ : ℚ)))
  | [], _, _ => by simp [spreadWalk]
  | (k, v) :: rest, spread, h => by
    by_cases h1 : spread < get_ceil_delta v
    · rw [allCeiled, if_pos h1] at h
      exact absurd h (by simp)
    · by_cases h2 : spread - get_ceil_delta v = 0
      · rw [allCeiled, if_neg h1, if_pos h2] at h
        have : rest = [] := by
          cases rest with
          | nil => rfl
          | cons q t => simp [List.isEmpty] at h
        subst this
        simp [spreadWalk, if_neg h1, if_pos h2]
      · rw [allCeiled, if_neg h1, if_neg h2] at h
        rw [spreadWalk, if_neg h1, if_neg h2, spreadWalk_allCeiled rest _ h]
        simp

/-! ## Claim C1 -/

/-- C1: for every non-empty mapping with positive fractional sheet counts
whose distribution walk visits every element (no early exit), the sum of
the values of `spread_delta`'s output equals the ceiling of the sum of the
input values, and it never exceeds the sum of `ceil_dict_values`'s
output values. -/
theorem claim_C1_spread_delta_sum {α : Type} (d : List (α × ℚ)) (hne : d ≠ [])
    (hpos : ∀ p ∈ d, 0 < p.2)
    (hvisit : visitsAll (get_ceil_delta (sumVals d)) (sortByDelta d) = true) :
    sumVals (spread_delta d) = ⌈sumVals d⌉ ∧
    sumVals (spread_delta d) ≤ sumVals (ceil_dict_values d) := by
  refine ⟨sumVals_spread_delta d, ?_⟩
  rw [sumVals_spread_delta d]
  exact ceil_sumVals_le d

/-- Witness for C1 at the one-element mapping `{0 ↦ 1/2}`. -/
theorem claim_C1_witness :
    ([((0:ℕ), Rat.divInt 1 2)] ≠ []) ∧
    (∀ p ∈ [((0:ℕ), Rat.divInt 1 2)], 0 < p.2) ∧
    visitsAll (get_ceil_delta (sumVals [((0:ℕ), Rat.divInt 1 2)]))
      (sortByDelta [((0:ℕ), Rat.divInt 1 2)]) = true ∧
    sumVals (spread_delta [((0:ℕ), Rat.divInt 1 2)]) = ⌈sumVals [((0:ℕ), Rat.divInt 1 2)]⌉ ∧
    sumVals (spread_delta [((0:ℕ), Rat.divInt 1 2)])
      ≤ sumVals (ceil_dict_values [((0:ℕ), Rat.divInt 1 2)]) :=
  ⟨by simp, by with_unfolding_all decide, by with_unfolding_all rfl,
    claim_C1_spread_delta_sum _ (by simp) (by with_unfolding_all decide)
      (by with_unfolding_all rfl)⟩

/-! ## Claim C3 -/

/-- C3 counterexample: the input `{0 ↦ 3/10, 1 ↦ 2/5}` has positive
fractional values, yet `spread_delta` returns a mapping with a
non-integer value (the element `1` absorbs the remaining spread and ends
at `7/10`), refuting the claim that both rounding policies always return
integer-valued mappings. -/
theorem claim_C3_counterexample :
    ([((0:ℕ), Rat.divInt 3 10), (1, Rat.divInt 2 5)].all (fun p => decide (0 < p.2)) = true) ∧
    ((spread_delta [((0:ℕ), Rat.divInt 3 10), (1, Rat.divInt 2 5)]).all
      (fun p => isIntVal p.2) = false) :=
  ⟨by with_unfolding_all rfl, by with_unfolding_all rfl⟩

/-- C3 (amended): `ceil_dict_values` always returns an integer-valued
mapping; `spread_delta` returns an integer-valued mapping whenever its
walk rounds every element up to its ceiling, while an element that
absorbs the remaining spread, or elements left unvisited, may keep
non-integer values. -/
theorem claim_C3_integer_outputs {α : Type} (d : List (α × ℚ)) :
    (∀ p ∈ ceil_dict_values d, isIntVal p.2 = true) ∧
    (allCeiled (get_ceil_delta (sumVals d)) (sortByDelta d) = true →
      ∀ p ∈ spread_delta d, isIntVal p.2 = true) := by
  constructor
  · intro p hp
    simp only [ceil_dict_values, List.mem_map] at hp
    obtain ⟨q, _, rfl⟩ := hp
    simp [isIntVal]
  · intro h p hp
    rw [spread_delta, spreadWalk_allCeiled _ _ h] at hp
    simp only [List.mem_map] at hp
    obtain ⟨q, _, rfl⟩ := hp
    simp [isIntVal]

/-- Witness for C3 (amended) at the one-element mapping `{0 ↦ 1/2}`,
whose walk ceils every element. -/
theorem claim_C3_witness :
    (allCeiled (get_ceil_delta (sumVals [((0:ℕ), Rat.divInt 1 2)]))
      (sortByDelta [((0:ℕ), Rat.divInt 1 2)]) = true) ∧
    (∀ p ∈ spread_delta [((0:ℕ), Rat.divInt 1 2)], isIntVal p.2 = true) :=
  ⟨by with_unfolding_all rfl,
    (claim_C3_integer_outputs [((0:ℕ), Rat.divInt 1 2)]).2 (by with_unfolding_all rfl)⟩

/-! ## Claim C4 -/

/-- C4: when at some step of the distribution walk the running spread
reaches exactly 0 after the current element is rounded up to its ceiling
(ceiling branch taken, decremented spread equal to 0), the loop exits
immediately: the output is the rounded element followed by the remaining
entries exactly as they stood, so every unvisited element keeps its
original fractional value in the output mapping. -/
theorem claim_C4_zero_exit {α : Type} (spread : ℚ) (k : α) (v : ℚ) (rest : List (α × ℚ))
    (h1 : ¬ spread < get_ceil_delta v) (h2 : spread - get_ceil_delta v = 0) :
    spreadWalk spread ((k, v) :: rest) = (k, (⌈v⌉ : ℚ)) :: rest ∧
    ∀ p ∈ rest, p ∈ spreadWalk spread ((k, v) :: rest) := by
  have h : spreadWalk spread ((k, v) :: rest) = (k, (⌈v⌉ : ℚ)) :: rest := by
    rw [spreadWalk, if_neg h1, if_pos h2]
  exact ⟨h, fun p hp => by rw [h]; exact List.mem_cons_of_mem _ hp⟩

/-- Witness for C4: spread `1/2`, element value `1/2`, one unvisited
element `{1 ↦ 1/3}`. -/
theorem claim_C4_witness :
    (¬ Rat.divInt 1 2 < get_ceil_delta (Rat.divInt 1 2)) ∧
    (Rat.divInt 1 2 - get_ceil_delta (Rat.divInt 1 2) = 0) ∧
    spreadWalk (Rat.divInt 1 2) [((0:ℕ), Rat.divInt 1 2), (1, Rat.divInt 1 3)]
      = [((0:ℕ), (⌈Rat.divInt 1 2⌉ : ℚ)), (1, Rat.divInt 1 3)] ∧
    ∀ p ∈ [((1:ℕ), Rat.divInt 1 3)],
      p ∈ spreadWalk (Rat.divInt 1 2) [((0:ℕ), Rat.divInt 1 2), (1, Rat.divInt 1 3)] :=
  ⟨by with_unfolding_all decide, by with_unfolding_all decide,
    (claim_C4_zero_exit (Rat.divInt 1 2) 0 (Rat.divInt 1 2) [(1, Rat.divInt 1 3)]
      (by with_unfolding_all decide) (by with_unfolding_all decide)).1,
    (claim_C4_zero_exit (Rat.divInt 1 2) 0 (Rat.divInt 1 2) [(1, Rat.divInt 1 3)]
      (by with_unfolding_all decide) (by with_unfolding_all decide)).2⟩

/-! ## Claim C5 -/

/-- C5: for positive preform dimensions and sheet dimensions, `get_pps`
returns the better of the two axis-aligned grid packings
`max(floor(L/a)*floor(W/b), floor(L/b)*floor(W/a))`; in particular for
`a=100, b=50, W=1000, L=2000` it returns `400`. -/
theorem claim_C5_get_pps :
    (∀ (a b : ℚ) (s : String) (f : String → FeedRec),
      0 < a → 0 < b → 0 < (f s).W → 0 < (f s).L →
      get_pps a b s f = max ((⌊(f s).L / a⌋ : ℚ) * (⌊(f s).W / b⌋ : ℚ))
        ((⌊(f s).L / b⌋ : ℚ) * (⌊(f s).W / a⌋ : ℚ))) ∧
    get_pps 100 50 "S" (fun _ => ⟨0, 1000, 2000, 0⟩) = 400 :=
  ⟨fun _ _ _ _ _ _ _ _ => rfl, by with_unfolding_all rfl⟩

/-- Witness for C5 at `a=100, b=50, W=1000, L=2000`. -/
theorem claim_C5_witness :
    (0 < (100:ℚ)) ∧ (0 < (50:ℚ)) ∧
    get_pps 100 50 "S" (fun _ => FeedRec.mk 0 1000 2000 0)
      = max ((⌊(2000:ℚ) / 100⌋ : ℚ) * (⌊(1000:ℚ) / 50⌋ : ℚ))
            ((⌊(2000:ℚ) / 50⌋ : ℚ) * (⌊(1000:ℚ) / 100⌋ : ℚ)) :=
  ⟨by norm_num, by norm_num,
    claim_C5_get_pps.1 100 50 "S" (fun _ => FeedRec.mk 0 1000 2000 0)
      (by norm_num) (by norm_num) (by norm_num) (by norm_num)⟩

/-! ## Claim C2 -/

/-- C2 (amended): every report row takes both its displayed `sheets_n`
field and its recommended piece count from the same post-distribution
value `v` of its element in the transformed bucket: `sheets_n` is `v`
rounded to 1 decimal and the recommendation is `v * pps` truncated to an
integer. -/
theorem claim_C2_report_fields (memo : List (String × MemoRec))
    (temp : List (String × List (String × List (String × ℚ))))
    (r : Row) (hr : r ∈ buildReport memo temp) :
    ∃ (sheetdict : List (String × List (String × ℚ))) (bucket : List (String × ℚ)) (v : ℚ),
      (r.sheet, sheetdict) ∈ sort_nested_dict temp ∧
      (r.mode, bucket) ∈ sheetdict ∧
      (r.elem, v) ∈ transformer r.mode bucket ∧
      r.sheets_n = pyRound1 v ∧
      r.recomm = pyInt (v * (memoGet memo r.elem).pps) ∧
      r.demand = (memoGet memo r.elem).demand ∧
      r.items = String.intercalate " " (memoGet memo r.elem).items := by
  simp only [buildReport, List.mem_flatMap, List.mem_map] at hr
  obtain ⟨sp, hsp, mp, hmp, ep, hep, rfl⟩ := hr
  exact ⟨sp.2, mp.2, ep.2, hsp, hmp, hep, rfl, rfl, rfl, rfl⟩

set_option maxRecDepth 4000 in
/-- Witness for C2 (amended) at the bucket `{S.single.x ↦ 26/5}`. -/
theorem claim_C2_witness :
    ((⟨"S", "single", "x", "A", 2080, 2400, (6:ℚ)⟩ : Row)
        ∈ buildReport [("x", ⟨400, 2080, ["A"]⟩)]
          [("S", [("single", [("x", Rat.divInt 26 5)])])]) ∧
    ∃ (sheetdict : List (String × List (String × ℚ))) (bucket : List (String × ℚ)) (v : ℚ),
      ((⟨"S", "single", "x", "A", 2080, 2400, (6:ℚ)⟩ : Row).sheet, sheetdict)
        ∈ sort_nested_dict [("S", [("single", [("x", Rat.divInt 26 5)])])] ∧
      ((⟨"S", "single", "x", "A", 2080, 2400, (6:ℚ)⟩ : Row).mode, bucket) ∈ sheetdict ∧
      ((⟨"S", "single", "x", "A", 2080, 2400, (6:ℚ)⟩ : Row).elem, v)
        ∈ transformer (⟨"S", "single", "x", "A", 2080, 2400, (6:ℚ)⟩ : Row).mode bucket ∧
      (⟨"S", "single", "x", "A", 2080, 2400, (6:ℚ)⟩ : Row).sheets_n = pyRound1 v ∧
      (⟨"S", "single", "x", "A", 2080, 2400, (6:ℚ)⟩ : Row).recomm
        = pyInt (v * (memoGet [("x", ⟨400, 2080, ["A"]⟩)]
            (⟨"S", "single", "x", "A", 2080, 2400, (6:ℚ)⟩ : Row).elem).pps) ∧
      (⟨"S", "single", "x", "A", 2080, 2400, (6:ℚ)⟩ : Row).demand
        = (memoGet [("x", ⟨400, 2080, ["A"]⟩)]
            (⟨"S", "single", "x", "A", 2080, 2400, (6:ℚ)⟩ : Row).elem).demand ∧
      (⟨"S", "single", "x", "A", 2080, 2400, (6:ℚ)⟩ : Row).items
        = String.intercalate " "
            (memoGet [("x", ⟨400, 2080, ["A"]⟩)]
              (⟨"S", "single", "x", "A", 2080, 2400, (6:ℚ)⟩ : Row).elem).items :=
  ⟨by with_unfolding_all decide,
    claim_C2_report_fields [("x", ⟨400, 2080, ["A"]⟩)]
      [("S", [("single", [("x", Rat.divInt 26 5)])])]
      ⟨"S", "single", "x", "A", 2080, 2400, (6:ℚ)⟩ (by with_unfolding_all decide)⟩

/-! ## String-order lemmas -/

theorem charListLe_refl : ∀ s, charListLe s s = true := by
  intro s
  induction s with
  | nil => rfl
  | cons a as ih => simp [charListLe, ih]

theorem charListLe_total : ∀ s t, (charListLe s t || charListLe t s) = true := by
  intro s
  induction s with
  | nil => intro t; simp [charListLe]
  | cons a as ih =>
    intro t
    cases t with
    | nil => simp [charListLe]
    | cons b bs =>
      by_cases hab : a = b
      · subst hab
        simpa [charListLe] using ih bs
      · have hba : ¬ b = a := fun h => hab h.symm
        simp only [charListLe, if_neg hab, if_neg hba]
        rcases lt_or_gt_of_ne hab with h | h
        · simp [h]
        · simp [h]

theorem charListLe_trans :
    ∀ s t u, charListLe s t = true → charListLe t u = true → charListLe s u = true := by
  intro s
  induction s with
  | nil => intro t u _ _; rfl
  | cons a as ih =>
    intro t u h1 h2
    cases t with
    | nil => simp [charListLe] at h1
    | cons b bs =>
      cases u with
      | nil => simp [charListLe] at h2
      | cons c cs =>
        by_cases hab : a = b <;> by_cases hbc : b = c
        · subst hab; subst hbc
          simp only [charListLe, if_pos rfl] at h1 h2 ⊢
          exact ih bs cs h1 h2
        · subst hab
          simp only [charListLe, if_neg hbc] at h2
          have hlt : a < c := of_decide_eq_true h2
          simp [charListLe, if_neg (ne_of_lt hlt), hlt]
        · subst hbc
          simp only [charListLe, if_neg hab] at h1
          have hlt : a < b := of_decide_eq_true h1
          simp [charListLe, if_neg (ne_of_lt hlt), hlt]
        · simp only [charListLe, if_neg hab] at h1
          simp only [charListLe, if_neg hbc] at h2
          have hlt : a < c := lt_trans (of_decide_eq_true h1) (of_decide_eq_true h2)
          simp [charListLe, if_neg (ne_of_lt hlt), hlt]

theorem strLeB_refl (s : String) : strLeB s s = true := charListLe_refl s.data

theorem strLeB_trans {s t u : String} (h1 : strLeB s t = true) (h2 : strLeB t u = true) :
    strLeB s u = true := charListLe_trans s.data t.data u.data h1 h2

theorem strLeB_total (s t : String) : (strLeB s t || strLeB t s) = true :=
  charListLe_total s.data t.data

theorem strLtB_of_le_ne {s t : String} (hle : strLeB s t = true) (hne : s ≠ t) :
    strLtB s t = true := by
  simp [strLtB, hle, hne]

theorem strLtB_ne {s t : String} (h : strLtB s t = true) : s ≠ t := by
  simp only [strLtB, Bool.and_eq_true, Bool.not_eq_true', beq_eq_false_iff_ne] at h
  exact h.2

/-! ## Sortedness of the report assembly -/

theorem sortByKey_pairwise {β : Type} (d : List (String × β)) :
    List.Pairwise (fun x y => strLeB x.1 y.1 = true) (sortByKey d) :=
  @List.sorted_mergeSort (String × β) (fun x y => strLeB x.1 y.1)
    (fun _ _ _ hab hbc => strLeB_trans hab hbc)
    (fun a b => strLeB_total a.1 b.1) d

theorem sortByKey_perm {β : Type} (d : List (String × β)) : (sortByKey d).Perm d :=
  List.mergeSort_perm d _

theorem pairwise_map_const {γ δ : Type} (l : List γ) (c : δ) (R : δ → δ → Prop)
    (h : R c c) : List.Pairwise R (l.map (fun _ => c)) := by
  induction l with
  | nil => simp
  | cons x xs ih =>
    simp only [List.map_cons, List.pairwise_cons]
    refine ⟨fun y hy => ?_, ih⟩
    obtain ⟨_, _, rfl⟩ := List.mem_map.mp hy
    exact h

theorem sort_nested_dict_inner_sorted {β : Type}
    (temp : List (String × List (String × β))) :
    ∀ sp ∈ sort_nested_dict temp,
      List.Pairwise (fun x y => strLeB x.1 y.1 = true) sp.2 := by
  intro sp hsp
  have hmem : sp ∈ temp.map (fun p => (p.1, sortByKey p.2)) :=
    (sortByKey_perm (temp.map (fun p => (p.1, sortByKey p.2)))).mem_iff.mp hsp
  obtain ⟨q, _, rfl⟩ := List.mem_map.mp hmem
  exact sortByKey_pairwise q.2

/-! ## Claim C6 (amended theorem) -/

/-- C6 (amended): report rows are emitted with sheets ascending by name
and modes ascending by name within each sheet; elements within a mode
follow the rounding policy's output order (insertion order for single
mode, ascending ceiling-delta order for grouped mode), not ascending
element name. -/
theorem claim_C6_sheet_mode_order (memo : List (String × MemoRec))
    (temp : List (String × List (String × List (String × ℚ))))
    (hkeys : (temp.map Prod.fst).Nodup) :
    List.Pairwise (fun x y => pairLeB x y = true)
      ((buildReport memo temp).map (fun r => (r.sheet, r.mode))) := by
  have hperm : (sort_nested_dict temp).Perm (temp.map (fun p => (p.1, sortByKey p.2))) :=
    sortByKey_perm _
  have hkeys' : ((sort_nested_dict temp).map Prod.fst).Nodup := by
    refine ((hperm.map Prod.fst).nodup_iff).mpr ?_
    have heq : (temp.map (fun p => (p.1, sortByKey p.2))).map Prod.fst = temp.map Prod.fst := by
      simp [List.map_map, Function.comp_def]
    rw [heq]
    exact hkeys
  have hst_ne : List.Pairwise (fun x y => x.1 ≠ y.1) (sort_nested_dict temp) :=
    List.pairwise_map.mp hkeys'
  have hst_le : List.Pairwise (fun x y => strLeB x.1 y.1 = true) (sort_nested_dict temp) :=
    sortByKey_pairwise _
  have hst_lt : List.Pairwise (fun x y => strLtB x.1 y.1 = true) (sort_nested_dict temp) :=
    (hst_le.and hst_ne).imp (fun h => strLtB_of_le_ne h.1 h.2)
  rw [buildReport, List.map_flatMap]
  refine (List.pairwise_flatMap).mpr ⟨?_, ?_⟩
  · intro sp hsp
    rw [List.map_flatMap]
    refine (List.pairwise_flatMap).mpr ⟨?_, ?_⟩
    · intro mp _
      rw [List.map_map]
      have heq : ((fun r : Row => (r.sheet, r.mode)) ∘ (fun ep : String × ℚ =>
          ({ sheet := sp.1, mode := mp.1, elem := ep.1,
             items := String.intercalate " " (memoGet memo ep.1).items,
             demand := (memoGet memo ep.1).demand,
             recomm := pyInt (ep.2 * (memoGet memo ep.1).pps),
             sheets_n := pyRound1 ep.2 } : Row)))
          = (fun _ => (sp.1, mp.1)) := rfl
      rw [heq]
      exact pairwise_map_const _ _ _ (by simp [pairLeB, strLeB_refl])
    · refine (sort_nested_dict_inner_sorted temp sp hsp).imp ?_
      intro mp₁ mp₂ hle x hx y hy
      simp only [List.map_map, List.mem_map, Function.comp] at hx hy
      obtain ⟨_, _, rfl⟩ := hx
      obtain ⟨_, _, rfl⟩ := hy
      simp [pairLeB, hle]
  · refine hst_lt.imp ?_
    intro sp₁ sp₂ hlt x hx y hy
    simp only [List.map_flatMap, List.mem_flatMap, List.map_map, List.mem_map,
      Function.comp] at hx hy
    obtain ⟨mp₁, _, _, _, rfl⟩ := hx
    obtain ⟨mp₂, _, _, _, rfl⟩ := hy
    simp [pairLeB, strLtB_ne hlt, hlt]

/-- Witness for C6 (amended) at the bucket `{S.single.x ↦ 26/5}`. -/
theorem claim_C6_witness :
    (([("S", [("single", [("x", Rat.divInt 26 5)])])].map Prod.fst).Nodup) ∧
    List.Pairwise (fun x y => pairLeB x y = true)
      ((buildReport [] [("S", [("single", [("x", Rat.divInt 26 5)])])]).map
        (fun r => (r.sheet, r.mode))) :=
  ⟨by simp, claim_C6_sheet_mode_order [] [("S", [("single", [("x", Rat.divInt 26 5)])])]
    (by simp)⟩

/-! ## Claim C7 -/

/-- C7 counterexample: the claim asserts `matches("WidgetPro", ["Pro"])`
is false, but the marker `"Pro"` is not all-lowercase, so the code tests
it as a case-sensitive substring of `"WidgetPro"` verbatim — and `"Pro"`
IS a substring of `"WidgetPro"`, so `has_marker` returns true. -/
theorem claim_C7_counterexample : has_marker "WidgetPro" ["Pro"] = true := by
  decide

/-- C7 (amended): an all-lowercase marker is tested as a substring of the
lowercased name and any other marker as a case-sensitive substring of
the name verbatim; in particular `matches("WidgetPro", ["pro"])` and
`matches("WidgetPro", ["Pro"])` are both true, while
`matches("WidgetPro", ["PRO"])` is false. -/
theorem claim_C7_marker_rule :
    (∀ (item w : String), pyIslower w = true →
      has_marker item [w] = substrB w (pyLower item)) ∧
    (∀ (item w : String), pyIslower w = false →
      has_marker item [w] = substrB w item) ∧
    has_marker "WidgetPro" ["pro"] = true ∧
    has_marker "WidgetPro" ["Pro"] = true ∧
    has_marker "WidgetPro" ["PRO"] = false := by
  refine ⟨?_, ?_, by decide, by decide, by decide⟩
  · intro item w h
    simp [has_marker, h]
  · intro item w h
    simp [has_marker, h]

/-- Witness for C7 (amended) at the lowercase marker `"pro"`. -/
theorem claim_C7_witness :
    pyIslower "pro" = true ∧
    has_marker "WidgetPro" ["pro"] = substrB "pro" (pyLower "WidgetPro") :=
  ⟨by decide, claim_C7_marker_rule.1 "WidgetPro" "pro" (by decide)⟩

/-! ## Aggregation lemmas -/

theorem counterVal_counterAdd (md : List (String × ℚ)) (k : String) (x : ℚ) (el : String) :
    counterVal (counterAdd md k x) el = counterVal md el + (if k = el then x else 0) := by
  induction md with
  | nil =>
    by_cases h : k = el
    · subst h; simp [counterAdd, counterVal, alistGet]
    · simp [counterAdd, counterVal, alistGet, h]
  | cons p rest ih =>
    obtain ⟨k', v⟩ := p
    by_cases h1 : k' = k
    · subst h1
      by_cases h2 : k' = el
      · subst h2
        simp [counterAdd, counterVal, alistGet]
      · simp [counterAdd, counterVal, alistGet, h2]
    · by_cases h2 : k' = el
      · subst h2
        have hk : k ≠ k' := fun h => h1 h.symm
        simp [counterAdd, counterVal, alistGet, h1, hk]
      · simp only [counterAdd, if_neg h1, counterVal, alistGet, if_neg h2]
        exact ih

theorem modeVal_modeAdd (sd : List (String × List (String × ℚ)))
    (mode elem : String) (x : ℚ) (m' e' : String) :
    modeVal (modeAdd sd mode elem x) m' e'
      = modeVal sd m' e' + (if mode = m' ∧ elem = e' then x else 0) := by
  induction sd with
  | nil =>
    by_cases h1 : mode = m'
    · subst h1
      by_cases h2 : elem = e'
      · subst h2; simp [modeAdd, modeVal, counterVal, alistGet]
      · simp [modeAdd, modeVal, counterVal, alistGet, h2]
    · simp [modeAdd, modeVal, alistGet, h1]
  | cons p rest ih =>
    obtain ⟨k', v⟩ := p
    by_cases h1 : k' = mode
    · subst h1
      by_cases h2 : k' = m'
      · subst h2
        simp [modeAdd, modeVal, alistGet, counterVal_counterAdd]
      · simp [modeAdd, modeVal, alistGet, h2]
    · by_cases h2 : k' = m'
      · subst h2
        have hk : mode ≠ k' := fun h => h1 h.symm
        simp [modeAdd, modeVal, alistGet, h1, hk]
      · simp only [modeAdd, if_neg h1, modeVal, alistGet, if_neg h2]
        exact ih

theorem bucketVal_bucketAdd (temp : List (String × List (String × List (String × ℚ))))
    (s m el : String) (x : ℚ) (s' m' el' : String) :
    bucketVal (bucketAdd temp s m el x) s' m' el'
      = bucketVal temp s' m' el' + (if s = s' ∧ m = m' ∧ el = el' then x else 0) := by
  induction temp with
  | nil =>
    by_cases h1 : s = s'
    · subst h1
      by_cases h2 : m = m'
      · subst h2
        by_cases h3 : el = el'
        · subst h3; simp [bucketAdd, bucketVal, modeVal, counterVal, alistGet]
        · simp [bucketAdd, bucketVal, modeVal, counterVal, alistGet, h3]
      · simp [bucketAdd, bucketVal, modeVal, alistGet, h2]
    · simp [bucketAdd, bucketVal, alistGet, h1]
  | cons p rest ih =>
    obtain ⟨k', v⟩ := p
    by_cases h1 : k' = s
    · subst h1
      by_cases h2 : k' = s'
      · subst h2
        by_cases h3 : m = m' ∧ el = el'
        · simp [bucketAdd, bucketVal, alistGet, modeVal_modeAdd, h3]
        · simp [bucketAdd, bucketVal, alistGet, modeVal_modeAdd, h3]
      · simp [bucketAdd, bucketVal, alistGet, h2]
    · by_cases h2 : k' = s'
      · subst h2
        have hk : s ≠ k' := fun h => h1 h.symm
        simp [bucketAdd, bucketVal, alistGet, h1, hk]
      · simp only [bucketAdd, if_neg h1, bucketVal, alistGet, if_neg h2]
        exact ih

theorem memoStep_snd (f : String → ℚ) :
    ∀ (memo : List (String × MemoRec)) (elem : String) (dem : ℤ) (item : String),
    memoWF f memo → (memoStep memo elem (f elem) dem item).2 = f elem
  | [], _, _, _, _ => rfl
  | (k', r) :: rest, elem, dem, item, h => by
    by_cases hk : k' = elem
    · subst hk
      simp only [memoStep, if_pos rfl]
      exact h (k', r) (List.mem_cons_self _ _)
    · simp only [memoStep, if_neg hk]
      exact memoStep_snd f rest elem dem item (fun q hq => h q (List.mem_cons_of_mem _ hq))

theorem memoStep_wf (f : String → ℚ) :
    ∀ (memo : List (String × MemoRec)) (elem : String) (dem : ℤ) (item : String),
    memoWF f memo → memoWF f (memoStep memo elem (f elem) dem item).1
  | [], elem, dem, item, _ => by
    intro q hq
    simp only [memoStep, List.mem_singleton] at hq
    subst hq
    rfl
  | (k', r) :: rest, elem, dem, item, h => by
    by_cases hk : k' = elem
    · subst hk
      simp only [memoStep, if_pos rfl]
      intro q hq
      rcases List.mem_cons.mp hq with h1 | h1
      · subst h1
        exact h (k', r) (List.mem_cons_self _ _)
      · exact h q (List.mem_cons_of_mem _ h1)
    · simp only [memoStep, if_neg hk]
      intro q hq
      rcases List.mem_cons.mp hq with h1 | h1
      · subst h1
        exact h (k', r) (List.mem_cons_self _ _)
      · exact memoStep_wf f rest elem dem item
          (fun q' hq' => h q' (List.mem_cons_of_mem _ hq')) q h1

theorem memoStep_items :
    ∀ (memo : List (String × MemoRec)) (elem : String) (p : ℚ) (dem : ℤ)
      (item el : String),
    memoItems (memoStep memo elem p dem item).1 el
      = memoItems memo el ++ (if elem = el then [item] else [])
  | [], elem, p, dem, item, el => by
    by_cases h : elem = el
    · subst h; simp [memoStep, memoItems, alistGet]
    · simp [memoStep, memoItems, alistGet, h]
  | (k', r) :: rest, elem, p, dem, item, el => by
    by_cases hk : k' = elem
    · subst hk
      by_cases hel : k' = el
      · subst hel
        simp [memoStep, memoItems, alistGet]
      · simp [memoStep, memoItems, alistGet, hel]
    · by_cases hel : k' = el
      · subst hel
        have : elem ≠ k' := fun h => hk h.symm
        simp [memoStep, memoItems, alistGet, hk, this]
      · simp only [memoStep, if_neg hk, memoItems, alistGet, if_neg hel]
        exact memoStep_items rest elem p dem item el

theorem processElem_spec (E : Env) (item : String) (qty : ℤ) (st : AggState)
    (ep : String × ℤ) (h : memoWF (ppsOf E) st.memo) :
    (∀ key : String × String × String,
      bucketVal (processElem E item qty st ep).temp key.1 key.2.1 key.2.2
        = bucketVal st.temp key.1 key.2.1 key.2.2 + contribElem E item qty key ep) ∧
    memoWF (ppsOf E) (processElem E item qty st ep).memo ∧
    (∀ el, memoItems (processElem E item qty st ep).memo el
      = memoItems st.memo el ++ (if ep.1 = el then [item] else [])) := by
  have hpps : (memoStep st.memo ep.1 (ppsOf E ep.1) (qty * ep.2) item).2 = ppsOf E ep.1 :=
    memoStep_snd (ppsOf E) st.memo ep.1 (qty * ep.2) item h
  refine ⟨?_, ?_, ?_⟩
  · intro key
    show bucketVal (bucketAdd st.temp (E.preforms ep.1).sheet
        (if has_marker item E.grouped then "grouped" else "single") ep.1
        (((qty * ep.2 : ℤ) : ℚ) / (memoStep st.memo ep.1 (ppsOf E ep.1) (qty * ep.2) item).2))
        key.1 key.2.1 key.2.2 = _
    rw [hpps, bucketVal_bucketAdd]
    congr 1
    obtain ⟨s', m', el'⟩ := key
    simp only [contribElem, Prod.mk.injEq]
  · exact memoStep_wf (ppsOf E) st.memo ep.1 (qty * ep.2) item h
  · intro el
    exact memoStep_items st.memo ep.1 (ppsOf E ep.1) (qty * ep.2) item el

theorem foldl_processElem_spec (E : Env) (item : String) (qty : ℤ) :
    ∀ (elems : List (String × ℤ)) (st : AggState), memoWF (ppsOf E) st.memo →
    (∀ key : String × String × String,
      bucketVal (elems.foldl (processElem E item qty) st).temp key.1 key.2.1 key.2.2
        = bucketVal st.temp key.1 key.2.1 key.2.2
          + (elems.map (contribElem E item qty key)).sum) ∧
    memoWF (ppsOf E) (elems.foldl (processElem E item qty) st).memo ∧
    (∀ el, memoItems (elems.foldl (processElem E item qty) st).memo el
      = memoItems st.memo el ++ elems.flatMap (fun ep => if ep.1 = el then [item] else []))
  | [], st, h => by
    refine ⟨fun key => ?_, h, fun el => ?_⟩ <;> simp
  | ep :: rest, st, h => by
    have hstep := processElem_spec E item qty st ep h
    have hrec := foldl_processElem_spec E item qty rest (processElem E item qty st ep)
      hstep.2.1
    refine ⟨fun key => ?_, hrec.2.1, fun el => ?_⟩
    · simp only [List.foldl_cons, List.map_cons, List.sum_cons]
      rw [hrec.1 key, hstep.1 key]
      ring
    · simp only [List.foldl_cons, List.flatMap_cons]
      rw [hrec.2.2 el, hstep.2.2 el, List.append_assoc]

theorem processEntry_spec (E : Env) (st : AggState) (e : String × Qty)
    (h : memoWF (ppsOf E) st.memo) :
    (∀ key : String × String × String,
      bucketVal (processEntry E st e).1.temp key.1 key.2.1 key.2.2
        = bucketVal st.temp key.1 key.2.1 key.2.2 + contrib E e key) ∧
    memoWF (ppsOf E) (processEntry E st e).1.memo ∧
    (∀ el, memoItems (processEntry E st e).1.memo el
      = memoItems st.memo el ++ itemsOfEntry E e el) := by
  obtain ⟨item, q⟩ := e
  match hc : alistGet E.contents item with
  | none =>
    refine ⟨fun key => ?_, ?_, fun el => ?_⟩ <;>
      simp [processEntry, contrib, itemsOfEntry, hc, h]
  | some elems =>
    match q with
    | Qty.other =>
      refine ⟨fun key => ?_, ?_, fun el => ?_⟩ <;>
        simp [processEntry, contrib, itemsOfEntry, hc, h]
    | Qty.int n =>
      by_cases hn : n ≤ 0
      · have hn' : ¬ 0 < n := not_lt.mpr hn
        refine ⟨fun key => ?_, ?_, fun el => ?_⟩ <;>
          simp [processEntry, contrib, itemsOfEntry, hc, hn, hn', h]
      · have hn' : 0 < n := lt_of_not_le hn
        have hfold := foldl_processElem_spec E item n elems st h
        refine ⟨fun key => ?_, ?_, fun el => ?_⟩
        · simp only [processEntry, hc, if_neg hn]
          rw [hfold.1 key]
          simp [contrib, hc, hn']
        · simp only [processEntry, hc, if_neg hn]
          exact hfold.2.1
        · simp only [processEntry, hc, if_neg hn]
          rw [hfold.2.2 el]
          simp [itemsOfEntry, hc, hn']

theorem foldl_entries_spec (E : Env) :
    ∀ (entries : List (String × Qty)) (st : AggState), memoWF (ppsOf E) st.memo →
    (∀ key : String × String × String,
      bucketVal (entries.foldl (fun st e => (processEntry E st e).1) st).temp
          key.1 key.2.1 key.2.2
        = bucketVal st.temp key.1 key.2.1 key.2.2
          + (entries.map (fun e => contrib E e key)).sum) ∧
    memoWF (ppsOf E) (entries.foldl (fun st e => (processEntry E st e).1) st).memo ∧
    (∀ el, memoItems (entries.foldl (fun st e => (processEntry E st e).1) st).memo el
      = memoItems st.memo el ++ entries.flatMap (fun e => itemsOfEntry E e el))
  | [], st, h => by
    refine ⟨fun key => ?_, h, fun el => ?_⟩ <;> simp
  | e :: rest, st, h => by
    have hstep := processEntry_spec E st e h
    have hrec := foldl_entries_spec E rest (processEntry E st e).1 hstep.2.1
    refine ⟨fun key => ?_, hrec.2.1, fun el => ?_⟩
    · simp only [List.foldl_cons, List.map_cons, List.sum_cons]
      rw [hrec.1 key, hstep.1 key]
      ring
    · simp only [List.foldl_cons, List.flatMap_cons]
      rw [hrec.2.2 el, hstep.2.2 el, List.append_assoc]

theorem aggregate_spec (E : Env) (entries : List (String × Qty)) :
    (∀ key : String × String × String,
      bucketVal (aggregate E entries).temp key.1 key.2.1 key.2.2
        = (entries.map (fun e => contrib E e key)).sum) ∧
    (∀ el, memoItems (aggregate E entries).memo el
      = entries.flatMap (fun e => itemsOfEntry E e el)) := by
  have h := foldl_entries_spec E entries ⟨[], []⟩ (fun q hq => absurd hq (List.not_mem_nil q))
  refine ⟨fun key => ?_, fun el => ?_⟩
  · rw [aggregate, h.1 key]
    simp [bucketVal, alistGet]
  · rw [aggregate, h.2.2 el]
    simp [memoItems, alistGet]

theorem processEntry_invalid (E : Env) (st : AggState) (e : String × Qty)
    (h : validEntry E e = false) : (processEntry E st e).1 = st := by
  obtain ⟨item, q⟩ := e
  match hc : alistGet E.contents item with
  | none => simp [processEntry, hc]
  | some elems =>
    match q with
    | Qty.other => simp [processEntry, hc]
    | Qty.int n =>
      simp only [validEntry, hc, decide_eq_false_iff_not, not_lt] at h
      simp [processEntry, hc, h]

theorem foldl_filter_valid (E : Env) :
    ∀ (l : List (String × Qty)) (st : AggState),
    l.foldl (fun st e => (processEntry E st e).1) st
      = (l.filter (validEntry E)).foldl (fun st e => (processEntry E st e).1) st
  | [], _ => rfl
  | e :: rest, st => by
    by_cases hv : validEntry E e = true
    · rw [List.filter_cons_of_pos hv, List.foldl_cons, List.foldl_cons]
      exact foldl_filter_valid E rest _
    · have hv' : validEntry E e = false := Bool.not_eq_true _ ▸ eq_false_of_ne_true hv
      rw [List.filter_cons_of_neg (by simp [hv']), List.foldl_cons,
        processEntry_invalid E st e hv']
      exact foldl_filter_valid E rest st

/-! ## Claim C8 -/

/-- C8: a demand entry with an unknown item, a non-integer quantity, or
a non-positive quantity is flagged with its distinct error kind
(`KeyError`, `TypeError`, `ValueError` respectively), leaves the
aggregation state exactly as it was (zero contribution to every bucket
and memo), and aggregation of any demand list equals aggregation of its
valid entries alone, so no invalid entry alters any other entry's
contribution. -/
theorem claim_C8_invalid_isolated (E : Env) :
    (∀ (st : AggState) (e : String × Qty), validEntry E e = false →
      (processEntry E st e).1 = st) ∧
    (∀ (st : AggState) (item : String) (q : Qty), alistGet E.contents item = none →
      (processEntry E st (item, q)).2 = Outcome.keyError) ∧
    (∀ (st : AggState) (item : String) (elems : List (String × ℤ)),
      alistGet E.contents item = some elems →
      (processEntry E st (item, Qty.other)).2 = Outcome.typeError) ∧
    (∀ (st : AggState) (item : String) (elems : List (String × ℤ)) (n : ℤ),
      alistGet E.contents item = some elems → n ≤ 0 →
      (processEntry E st (item, Qty.int n)).2 = Outcome.valueError) ∧
    (Outcome.keyError ≠ Outcome.typeError ∧ Outcome.keyError ≠ Outcome.valueError ∧
      Outcome.typeError ≠ Outcome.valueError) ∧
    (∀ entries : List (String × Qty),
      aggregate E entries = aggregate E (entries.filter (validEntry E))) := by
  refine ⟨processEntry_invalid E, ?_, ?_, ?_, ⟨by simp, by simp, by simp⟩, ?_⟩
  · intro st item q hc
    simp [processEntry, hc]
  · intro st item elems hc
    simp [processEntry, hc]
  · intro st item elems n hc hn
    simp [processEntry, hc, hn]
  · intro entries
    exact foldl_filter_valid E entries ⟨[], []⟩

/-- Witness for C8: the unknown item `Unknown` is flagged `KeyError`,
contributes nothing, and the buckets for
`[("Widget", 5), ("Unknown", 3)]` equal those for `[("Widget", 5)]`. -/
theorem claim_C8_witness :
    (validEntry envW ("Unknown", Qty.int 3) = false) ∧
    ((processEntry envW ⟨[], []⟩ ("Unknown", Qty.int 3)).1 = (⟨[], []⟩ : AggState)) ∧
    ((processEntry envW ⟨[], []⟩ ("Unknown", Qty.int 3)).2 = Outcome.keyError) ∧
    (aggregate envW [("Widget", Qty.int 5), ("Unknown", Qty.int 3)]
      = aggregate envW [("Widget", Qty.int 5)]) :=
  ⟨by with_unfolding_all decide,
    (claim_C8_invalid_isolated envW).1 ⟨[], []⟩ ("Unknown", Qty.int 3)
      (by with_unfolding_all decide),
    (claim_C8_invalid_isolated envW).2.1 ⟨[], []⟩ "Unknown" (Qty.int 3)
      (by with_unfolding_all rfl),
    ((claim_C8_invalid_isolated envW).2.2.2.2.2
        [("Widget", Qty.int 5), ("Unknown", Qty.int 3)]).trans
      (congrArg (aggregate envW) (by with_unfolding_all rfl))⟩

/-- C2 counterexample: for the demand `[("A", 1040)]` under `envA2`, the
element `x` accumulates the pre-rounding fractional count `26/5 = 5.2`,
yet the emitted row displays `sheets_n = 6` — the post-distribution
ceiling rounded to 1 decimal — and not `round(5.2, 1) = 5.2`. -/
theorem claim_C2_counterexample :
    ((buildReport (aggregate envA2 [("A", Qty.int 1040)]).memo
        (aggregate envA2 [("A", Qty.int 1040)]).temp).map (fun r => r.sheets_n)
      = [(6:ℚ)]) ∧
    bucketVal (aggregate envA2 [("A", Qty.int 1040)]).temp "S" "single" "x"
      = Rat.divInt 26 5 ∧
    pyRound1 (Rat.divInt 26 5) ≠ (6:ℚ) :=
  ⟨by with_unfolding_all rfl, by with_unfolding_all rfl, by with_unfolding_all decide⟩

/-- C6 counterexample: for the demand `[("A", 1), ("B", 1)]` under
`envAB`, both elements land in the bucket `S.single` in insertion order
`x`, `a`, and the report emits the row for `x` before the row for `a`:
elements are not sorted ascending by name within the mode. -/
theorem claim_C6_counterexample :
    ¬ reportSortedByName
        (buildReport (aggregate envAB [("A", Qty.int 1), ("B", Qty.int 1)]).memo
          (aggregate envAB [("A", Qty.int 1), ("B", Qty.int 1)]).temp) := by
  unfold reportSortedByName
  with_unfolding_all decide

/-! ## Claim C9 -/

/-- C9: aggregating any two demand lists that are permutations of each
other yields the same accumulated fractional total in every
(sheet, mode, element) bucket, while each element's contributing-items
memo lists the items of the valid entries naming it, one occurrence per
entry, in the order the entries were encountered. -/
theorem claim_C9_aggregation (E : Env) (l₁ l₂ : List (String × Qty))
    (hperm : l₁.Perm l₂) :
    (∀ sheet mode elem : String,
      bucketVal (aggregate E l₁).temp sheet mode elem
        = bucketVal (aggregate E l₂).temp sheet mode elem) ∧
    (∀ (entries : List (String × Qty)) (elem : String),
      memoItems (aggregate E entries).memo elem
        = entries.flatMap (fun e => itemsOfEntry E e elem)) := by
  refine ⟨fun sheet mode elem => ?_, fun entries elem => (aggregate_spec E entries).2 elem⟩
  rw [(aggregate_spec E l₁).1 (sheet, mode, elem), (aggregate_spec E l₂).1 (sheet, mode, elem)]
  exact (hperm.map (fun e => contrib E e (sheet, mode, elem))).sum_eq

/-- Witness for C9: two demands for `Widget` in both orders. -/
theorem claim_C9_witness :
    (bucketVal (aggregate envW [("Widget", Qty.int 1), ("Widget", Qty.int 2)]).temp
        "S" "single" "w"
      = bucketVal (aggregate envW [("Widget", Qty.int 2), ("Widget", Qty.int 1)]).temp
        "S" "single" "w") ∧
    (memoItems (aggregate envW [("Widget", Qty.int 1), ("Widget", Qty.int 2)]).memo "w"
      = [("Widget", Qty.int 1), ("Widget", Qty.int 2)].flatMap
          (fun e => itemsOfEntry envW e "w")) :=
  ⟨(claim_C9_aggregation envW [("Widget", Qty.int 1), ("Widget", Qty.int 2)]
      [("Widget", Qty.int 2), ("Widget", Qty.int 1)]
      (List.Perm.swap ("Widget", Qty.int 2) ("Widget", Qty.int 1) [])).1 "S" "single" "w",
    (claim_C9_aggregation envW [("Widget", Qty.int 1), ("Widget", Qty.int 2)]
      [("Widget", Qty.int 2), ("Widget", Qty.int 1)]
      (List.Perm.swap ("Widget", Qty.int 2) ("Widget", Qty.int 1) [])).2
      [("Widget", Qty.int 1), ("Widget", Qty.int 2)] "w"⟩

theorem innerDelete_none {m : List (String × ℤ)} {elem : String}
    (h : alistGet m elem = none) : innerDelete m elem = none := by
  induction m with
  | nil => rfl
  | cons p rest ih =>
    obtain ⟨k, v⟩ := p
    by_cases hk : k = elem
    · simp [alistGet, hk] at h
    · simp only [alistGet, if_neg hk] at h
      simp [innerDelete, hk, ih h]

theorem innerDelete_eraseP {m : List (String × ℤ)} {elem : String} {v : ℤ}
    (h : alistGet m elem = some v) :
    innerDelete m elem = some (m.eraseP (fun q => decide (q.1 = elem))) := by
  induction m with
  | nil => simp [alistGet] at h
  | cons p rest ih =>
    obtain ⟨k, w⟩ := p
    by_cases hk : k = elem
    · simp [innerDelete, hk, List.eraseP_cons]
    · simp only [alistGet, if_neg hk] at h
      simp [innerDelete, hk, List.eraseP_cons, ih h]

theorem innerDelete_subset {m m' : List (String × ℤ)} {elem : String}
    (h : innerDelete m elem = some m') : ∀ q ∈ m', q ∈ m := by
  induction m generalizing m' with
  | nil => simp [innerDelete] at h
  | cons p rest ih =>
    obtain ⟨k, v⟩ := p
    by_cases hk : k = elem
    · simp only [innerDelete, if_pos hk, Option.some.injEq] at h
      subst h
      exact fun q hq => List.mem_cons_of_mem _ hq
    · simp only [innerDelete, if_neg hk] at h
      match hrec : innerDelete rest elem with
      | none => rw [hrec] at h; simp at h
      | some rest' =>
        rw [hrec] at h
        simp only [Option.map_some', Option.some.injEq] at h
        subst h
        intro q hq
        rcases List.mem_cons.mp hq with h1 | h1
        · subst h1; exact List.mem_cons_self _ _
        · exact List.mem_cons_of_mem _ (ih hrec q h1)

theorem bomDelete_none {temp : List (String × List (String × ℤ))} {item elem : String}
    (h : (alistGet temp item).bind (fun m => alistGet m elem) = none) :
    bomDelete temp item elem = none := by
  induction temp with
  | nil => rfl
  | cons p rest ih =>
    obtain ⟨k, m⟩ := p
    by_cases hk : k = item
    · simp only [alistGet, if_pos hk, Option.bind_some] at h
      simp [bomDelete, hk, innerDelete_none h]
    · simp only [alistGet, if_neg hk] at h
      simp [bomDelete, hk, ih h]

theorem alistGet_none_of_not_mem {β : Type} {l : List (String × β)} {k : String}
    (h : k ∉ l.map Prod.fst) : alistGet l k = none := by
  induction l with
  | nil => rfl
  | cons p rest ih =>
    simp only [List.map_cons, List.mem_cons, not_or] at h
    have : p.1 ≠ k := fun he => h.1 he.symm
    obtain ⟨k', v⟩ := p
    simp only [alistGet, if_neg this]
    exact ih h.2

theorem bomDelete_found :
    ∀ (temp : List (String × List (String × ℤ))) (item elem : String)
      (m : List (String × ℤ)),
    (temp.map Prod.fst).Nodup → alistGet temp item = some m →
    (alistGet m elem).isSome = true →
    ∃ temp', bomDelete temp item elem = some temp' ∧
      alistGet temp' item
        = (if m.eraseP (fun q => decide (q.1 = elem)) = [] then none
           else some (m.eraseP (fun q => decide (q.1 = elem)))) ∧
      ∀ it, it ≠ item → alistGet temp' it = alistGet temp it
  | [], item, elem, m, _, hitem, _ => by simp [alistGet] at hitem
  | (k, m') :: rest, item, elem, m, hnd, hitem, helem => by
    simp only [List.map_cons, List.nodup_cons] at hnd
    by_cases hk : k = item
    · subst hk
      simp only [alistGet, if_pos rfl, if_true, eq_self_iff_true, Option.some.injEq] at hitem
      subst hitem
      obtain ⟨v, hv⟩ := Option.isSome_iff_exists.mp helem
      refine ⟨if m'.eraseP (fun q => decide (q.1 = elem)) = [] then rest
        else (k, m'.eraseP (fun q => decide (q.1 = elem))) :: rest, ?_, ?_, ?_⟩
      · simp [bomDelete, innerDelete_eraseP hv]
      · by_cases he : m'.eraseP (fun q => decide (q.1 = elem)) = []
        · simp only [if_pos he]
          exact alistGet_none_of_not_mem hnd.1
        · simp [he, alistGet]
      · intro it hit
        have hkit : ¬ k = it := fun h => hit h.symm
        by_cases he : m'.eraseP (fun q => decide (q.1 = elem)) = []
        · simp [he, alistGet, hkit]
        · simp [he, alistGet, hkit]
    · simp only [alistGet, if_neg hk] at hitem
      obtain ⟨rest', hdel, hget, hother⟩ :=
        bomDelete_found rest item elem m hnd.2 hitem helem
      refine ⟨(k, m') :: rest', ?_, ?_, ?_⟩
      · simp [bomDelete, hk, hdel]
      · simp only [alistGet, if_neg hk]
        exact hget
      · intro it hit
        by_cases hkit : k = it
        · simp [alistGet, hkit]
        · simp only [alistGet, if_neg hkit]
          exact hother it hit

theorem alistSet_pos {m : List (String × ℤ)} {elem : String} {n : ℤ}
    (hn : 0 < n) (hm : ∀ q ∈ m, 0 < q.2) : ∀ q ∈ alistSet m elem n, 0 < q.2 := by
  induction m with
  | nil =>
    intro q hq
    simp only [alistSet, List.mem_singleton] at hq
    subst hq
    exact hn
  | cons p rest ih =>
    obtain ⟨k, v⟩ := p
    intro q hq
    by_cases hk : k = elem
    · simp only [alistSet, if_pos hk] at hq
      rcases List.mem_cons.mp hq with h1 | h1
      · subst h1; exact hn
      · exact hm q (List.mem_cons_of_mem _ h1)
    · simp only [alistSet, if_neg hk] at hq
      rcases List.mem_cons.mp hq with h1 | h1
      · subst h1; exact hm (k, v) (List.mem_cons_self _ _)
      · exact ih (fun q' hq' => hm q' (List.mem_cons_of_mem _ hq')) q h1

theorem alistSet_ne_nil (m : List (String × ℤ)) (elem : String) (n : ℤ) :
    alistSet m elem n ≠ [] := by
  cases m with
  | nil => simp [alistSet]
  | cons p rest =>
    obtain ⟨k, v⟩ := p
    by_cases hk : k = elem <;> simp [alistSet, hk]

theorem goodBOM_bomInsert {temp : List (String × List (String × ℤ))}
    {item elem : String} {n : ℤ} (hn : 0 < n) (h : goodBOM temp) :
    goodBOM (bomInsert temp item elem n) := by
  induction temp with
  | nil =>
    intro p hp
    simp only [bomInsert, List.mem_singleton] at hp
    subst hp
    exact ⟨by simp, fun q hq => by
      simp only [List.mem_singleton] at hq
      subst hq
      exact hn⟩
  | cons hd rest ih =>
    obtain ⟨k, m⟩ := hd
    by_cases hk : k = item
    · intro p hp
      simp only [bomInsert, if_pos hk] at hp
      rcases List.mem_cons.mp hp with h1 | h1
      · subst h1
        exact ⟨alistSet_ne_nil m elem n,
          alistSet_pos hn (h (k, m) (List.mem_cons_self _ _)).2⟩
      · exact h p (List.mem_cons_of_mem _ h1)
    · intro p hp
      simp only [bomInsert, if_neg hk] at hp
      rcases List.mem_cons.mp hp with h1 | h1
      · subst h1; exact h (k, m) (List.mem_cons_self _ _)
      · exact ih (fun p' hp' => h p' (List.mem_cons_of_mem _ hp')) p h1

theorem goodBOM_bomDelete :
    ∀ {temp temp' : List (String × List (String × ℤ))} {item elem : String},
    bomDelete temp item elem = some temp' → goodBOM temp → goodBOM temp'
  | [], _, item, elem, hdel, _ => by simp [bomDelete] at hdel
  | (k, m) :: rest, temp', item, elem, hdel, h => by
    by_cases hk : k = item
    · simp only [bomDelete, if_pos hk] at hdel
      match hin : innerDelete m elem with
      | none => rw [hin] at hdel; simp at hdel
      | some m' =>
        rw [hin] at hdel
        simp only [Option.map_some', Option.some.injEq] at hdel
        subst hdel
        by_cases he : m' = []
        · simp only [if_pos he]
          exact fun p hp => h p (List.mem_cons_of_mem _ hp)
        · simp only [if_neg he]
          intro p hp
          rcases List.mem_cons.mp hp with h1 | h1
          · subst h1
            exact ⟨he, fun q hq => (h (k, m) (List.mem_cons_self _ _)).2 q
              (innerDelete_subset hin q hq)⟩
          · exact h p (List.mem_cons_of_mem _ h1)
    · simp only [bomDelete, if_neg hk] at hdel
      match hrec : bomDelete rest item elem with
      | none => rw [hrec] at hdel; simp at hdel
      | some rest' =>
        rw [hrec] at hdel
        simp only [Option.map_some', Option.some.injEq] at hdel
        subst hdel
        intro p hp
        rcases List.mem_cons.mp hp with h1 | h1
        · subst h1; exact h (k, m) (List.mem_cons_self _ _)
        · exact goodBOM_bomDelete hrec
            (fun p' hp' => h p' (List.mem_cons_of_mem _ hp')) p h1

theorem goodBOM_bomStep (temp : List (String × List (String × ℤ))) (r : CRow)
    (h : goodBOM temp) : goodBOM (bomStep temp r).1 := by
  obtain ⟨oi, oe, op⟩ := r
  match oi, oe, op with
  | none, _, _ => exact h
  | some _, none, _ => exact h
  | some _, some _, none => exact h
  | some item, some elem, some Qty.other => exact h
  | some item, some elem, some (Qty.int n) =>
    by_cases hn : 0 < n
    · simp only [bomStep, if_pos hn]
      exact goodBOM_bomInsert hn h
    · by_cases hz : n = 0
      · simp only [bomStep, if_neg hn, if_pos hz]
        match hdel : bomDelete temp item elem with
        | some temp' =>
          simp only [hdel]
          exact goodBOM_bomDelete hdel h
        | none => simp only [hdel]; exact h
      · simp only [bomStep, if_neg hn, if_neg hz]
        exact h

/-! ## Claim C10 -/

/-- C10: a contents row with quantity exactly 0 deletes the element from
the item's mapping (and the item itself when its mapping becomes empty),
leaves the other items untouched, and is flagged `KeyError` (state
unchanged) when the item or the element is absent; consequently
`update_contents` maps a bill of materials with only positive piece
counts and no empty item mappings to another such bill of materials. -/
theorem claim_C10_update_contents :
    (∀ (temp : List (String × List (String × ℤ))) (item elem : String),
      (alistGet temp item).bind (fun m => alistGet m elem) = none →
      bomStep temp ⟨some item, some elem, some (Qty.int 0)⟩ = (temp, Flag.keyError)) ∧
    (∀ (temp : List (String × List (String × ℤ))) (item elem : String)
       (m : List (String × ℤ)),
      (temp.map Prod.fst).Nodup → alistGet temp item = some m →
      (alistGet m elem).isSome = true →
      ∃ temp', bomStep temp ⟨some item, some elem, some (Qty.int 0)⟩ = (temp', Flag.now) ∧
        alistGet temp' item
          = (if m.eraseP (fun q => decide (q.1 = elem)) = [] then none
             else some (m.eraseP (fun q => decide (q.1 = elem)))) ∧
        ∀ it, it ≠ item → alistGet temp' it = alistGet temp it) ∧
    (∀ (rows : List CRow) (temp : List (String × List (String × ℤ))),
      goodBOM temp → goodBOM (update_contents rows temp)) := by
  refine ⟨?_, ?_, ?_⟩
  · intro temp item elem h
    simp [bomStep, bomDelete_none h]
  · intro temp item elem m hnd hitem helem
    obtain ⟨temp', hdel, hget, hother⟩ := bomDelete_found temp item elem m hnd hitem helem
    exact ⟨temp', by simp [bomStep, hdel], hget, hother⟩
  · intro rows
    induction rows with
    | nil => exact fun temp h => h
    | cons r rest ih =>
      intro temp h
      exact ih _ (goodBOM_bomStep temp r h)

/-- Witness for C10: deleting `x` from `{A: {x: 2, y: 3}}` keeps `y`;
deleting from the empty mapping is flagged `KeyError`; a run of one
deletion row preserves the invariant. -/
theorem claim_C10_witness :
    (bomStep [] ⟨some "A", some "x", some (Qty.int 0)⟩ = ([], Flag.keyError)) ∧
    (∃ temp', bomStep [("A", [("x", 2), ("y", 3)])]
        ⟨some "A", some "x", some (Qty.int 0)⟩ = (temp', Flag.now) ∧
      alistGet temp' "A"
        = (if ([("x", (2:ℤ)), ("y", 3)]).eraseP (fun q => decide (q.1 = "x")) = []
           then none
           else some (([("x", (2:ℤ)), ("y", 3)]).eraseP (fun q => decide (q.1 = "x")))) ∧
      ∀ it, it ≠ "A" → alistGet temp' it = alistGet [("A", [("x", (2:ℤ)), ("y", 3)])] it) ∧
    goodBOM (update_contents [⟨some "A", some "x", some (Qty.int 0)⟩]
      [("A", [("x", 2), ("y", 3)])]) :=
  ⟨claim_C10_update_contents.1 [] "A" "x" (by with_unfolding_all rfl),
    claim_C10_update_contents.2.1 [("A", [("x", 2), ("y", 3)])] "A" "x"
      [("x", 2), ("y", 3)] (by simp) (by with_unfolding_all rfl)
      (by with_unfolding_all rfl),
    claim_C10_update_contents.2.2 [⟨some "A", some "x", some (Qty.int 0)⟩]
      [("A", [("x", 2), ("y", 3)])]
      (by unfold goodBOM; decide)⟩

end Calcumet
